import Mathlib

/-! Verification of the ccrag retrieval pipeline (Go sources: `main.go` and
the two variants in `src/unnamed/part_000`).

Modelling conventions:
* Go `float64` values are modelled as exact rationals (`ℚ`).  `math.Sqrt` is
  threaded through as an explicit parameter `sq : ℚ → ℚ`; all concrete
  evaluations below apply it only to `0` and `1`, where IEEE-754 square root
  is exact, so the rational model agrees with the float computation there.
* A Go `panic` (and `log.Fatal`, which likewise aborts the process) is
  modelled as the `none` / dedicated-constructor outcome of the enclosing
  computation.
* The word scanner `bufio.ScanWords` splits a text into its maximal
  whitespace-free words; the chunker is modelled on that word list.
-/

/-- Persisted record (`EmbeddingFile` in `main.go`): the chunk vectors, the
chunk-size parameter in effect, and the source document path. -/
structure EmbeddingFile where
  Embeddings : List (List ℚ)
  ChunkSize : ℕ
  Source : String
deriving DecidableEq

/-- Query-time scored document (`ScoredResult` in `main.go`). -/
structure ScoredResult where
  Score : ℚ
  Path : String
deriving DecidableEq

/-- Accumulation loop of `cosineSimilarity`: returns `(aMag, bMag, dotProduct)`
after walking both vectors in lockstep (the Go loop runs over equal-length
vectors; trailing elements of a longer list are never reached because the
length guard fires first). -/
def simLoop : List ℚ → List ℚ → ℚ × ℚ × ℚ
  | a :: as, b :: bs =>
    let r := simLoop as bs
    (a * a + r.1, b * b + r.2.1, a * b + r.2.2)
  | _, _ => (0, 0, 0)

/-- Model of `cosineSimilarity` from `main.go` (and the whole-file variant):
on a length mismatch the Go code panics, modelled as `none`; otherwise it
returns `dotProduct / (sqrt aMag * sqrt bMag)`. -/
def cosineSimilarity (sq : ℚ → ℚ) (a b : List ℚ) : Option ℚ :=
  if a.length ≠ b.length then none
  else
    let r := simLoop a b
    some (r.2.2 / (sq r.1 * sq r.2.1))

/-- Model of `cosineSimilarity` from the tokenizer variant
(`src/unnamed/part_000`, first program): on a length mismatch it silently
returns `0`. -/
def cosineSimilarityTok (sq : ℚ → ℚ) (a b : List ℚ) : ℚ :=
  if a.length ≠ b.length then 0
  else
    let r := simLoop a b
    r.2.2 / (sq r.1 * sq r.2.1)

/-- Square root used to instantiate the abstract `sq` parameter in concrete
evaluations.  All concrete vectors below have squared magnitudes `0` or `1`,
and on those two inputs this function agrees with the real (and exact
IEEE-754) square root. -/
def ratSqrt (x : ℚ) : ℚ := if x = 1 then 1 else 0

/-- Per-chunk cosine scores of a record against query `q`, in store order;
`none` as soon as one comparison panics. -/
def chunkScores (sq : ℚ → ℚ) (q : List ℚ) : List (List ℚ) → Option (List ℚ)
  | [] => some []
  | e :: es =>
    match cosineSimilarity sq q e, chunkScores sq q es with
    | some c, some cs => some (c :: cs)
    | _, _ => none

/-- The `score +=` accumulation loop over a record's embeddings in the query
path of `main.go` (lines 292-295). -/
def scoreLoop (sq : ℚ → ℚ) (q : List ℚ) (acc : ℚ) : List (List ℚ) → Option ℚ
  | [] => some acc
  | e :: es =>
    match cosineSimilarity sq q e with
    | none => none
    | some c => scoreLoop sq q (acc + c) es

/-- Aggregate score of one record in `main.go`: the accumulated sum divided by
the number of stored chunk vectors (`score /= float64(len(embNote.Embeddings))`). -/
def scoreRecord (sq : ℚ → ℚ) (q : List ℚ) (embs : List (List ℚ)) : Option ℚ :=
  (scoreLoop sq q 0 embs).map (fun s => s / (embs.length : ℚ))

/-- Aggregate score of one record in the whole-file variant
(`src/unnamed/part_000`, second program, line 672): only the first stored
vector is compared, `score := cosineSimilarity(q, embNote.Embeddings[0])`. -/
def scoreRecordHead (sq : ℚ → ℚ) (q : List ℚ) : List (List ℚ) → Option ℚ
  | [] => none
  | v :: _ => cosineSimilarity sq q v

/-- Full-corpus scan of the query path (`main.go` lines 276-308).  Each entry
is the parse result of one persisted file: `none` for a record that fails
`json.Unmarshal` (the Go code calls `log.Fatal`, aborting the scan, modelled
as overall `none`); a parsed record with zero vectors is skipped with a
warning; otherwise the record is scored (a cosine panic also aborts). -/
def scanCorpus (sq : ℚ → ℚ) (q : List ℚ) : List (Option EmbeddingFile) → Option (List ScoredResult)
  | [] => some []
  | none :: _ => none
  | some rec :: rest =>
    if rec.Embeddings = [] then scanCorpus sq q rest
    else
      match scoreRecord sq q rec.Embeddings with
      | none => none
      | some s => (scanCorpus sq q rest).map (fun l => ⟨s, rec.Source⟩ :: l)

/-- Truncation of a rational toward zero, the semantics of Go's
`int(x)` conversion on a float. -/
def ratTrunc (x : ℚ) : ℤ := x.num.tdiv (x.den : ℤ)

/-- The comparator passed to `slices.SortFunc` in the query path:
`int((100.0*a.Score - 100.0*b.Score))`. -/
def scoreCmp (a b : ScoredResult) : ℤ := ratTrunc (100 * a.Score - 100 * b.Score)

/-- One step of Go's `insertionSortCmpFunc`: the new element `a` is appended
after the accumulated prefix `p` and swapped leftwards while it compares
strictly below its left neighbour. -/
def goInsert (cmp : α → α → ℤ) (p : List α) (a : α) : List α :=
  let rev := p.reverse
  (rev.dropWhile (fun x => cmp a x < 0)).reverse ++ a :: (rev.takeWhile (fun x => cmp a x < 0)).reverse

/-- Go's `slices.SortFunc` on slices of at most 12 elements: `pdqsortCmpFunc`
dispatches to plain insertion sort for `length <= 12`, processing elements
left to right. -/
def insertionSortGo (cmp : α → α → ℤ) (l : List α) : List α :=
  l.foldl (goInsert cmp) []

/-- The top-k selection loop (`main.go` lines 317-321):
`for i := len(scores)-1; i > len(scores)-(maxResults+1); i--` collects
`scores[i]`.  It always runs `k` iterations; when the index goes negative the
Go code panics with index out of range, modelled as `none`. -/
def selectLoop (l : List α) : ℤ → ℕ → Option (List α)
  | _, 0 => some []
  | i, m + 1 =>
    if i < 0 then none
    else
      match l.get? i.toNat with
      | none => none
      | some v => (selectLoop l (i - 1) m).map (fun r => v :: r)

/-- Selection of the `maxResults` best-scoring records from the sorted slice. -/
def selectTopK (l : List α) (k : ℕ) : Option (List α) :=
  selectLoop l ((l.length : ℤ) - 1) k

/-- The ranking stage of the query path: sort the scored records ascending
with `scoreCmp` (insertion sort, the observed behaviour of `slices.SortFunc`
for at most 12 records), then walk the tail backwards collecting `k` entries. -/
def rankScores (l : List ScoredResult) (k : ℕ) : Option (List ScoredResult) :=
  selectTopK (insertionSortGo scoreCmp l) k

/-- Word-level chunking loop of `readFileInChunks` (`main.go` lines 119-137):
accumulate scanned words, flush when the count reaches `chunkSize`, flush the
non-empty remainder at the end. -/
def chunkLoop (N : ℕ) : List α → List α → List (List α)
  | [], [] => []
  | [], a :: acc => [a :: acc]
  | w :: ws, acc =>
    let acc2 := acc ++ [w]
    if acc2.length = N then acc2 :: chunkLoop N ws [] else chunkLoop N ws acc2

/-- The per-chunk word lists produced by the word-count chunker. -/
def chunkList (N : ℕ) (ws : List α) : List (List α) := chunkLoop N ws []

/-- String rendering of one chunk: every scanned word is written followed by a
single space (`currentChunk.WriteString(word + " ")`). -/
def renderChunk : List String → String
  | [] => ""
  | w :: ws => w ++ " " ++ renderChunk ws

/-- The string-building loop of `readFileInChunks` in `main.go`, carrying the
Go locals `wordCount` and `currentChunk`; the final partial chunk is appended
when `currentChunk.Len() > 0`. -/
def readLoop (N : ℕ) : List String → ℕ → String → List String
  | [], _, cur => if 0 < cur.length then [cur] else []
  | w :: ws, cnt, cur =>
    let cur2 := cur ++ (w ++ " ")
    if cnt + 1 = N then cur2 :: readLoop N ws 0 "" else readLoop N ws (cnt + 1) cur2

/-- Model of `readFileInChunks` from `main.go` on the word sequence produced
by `bufio.ScanWords` for the file's text. -/
def readFileInChunks (ws : List String) (N : ℕ) : List String := readLoop N ws 0 ""

/-- Model of `readFileInChunks` from the tokenizer variant: read the file
(`text`, `none` on read error), tokenize it through the service (`tok`,
`none` on transport/HTTP failure), slice the token list into consecutive
blocks of `chunkSize` (the `for i := 0; i < len(tokens); i += chunkSize` loop,
which for `chunkSize ≥ 1` groups exactly as `chunkList`), and detokenize each
block (`detok`, any failure aborting with an error). -/
def readFileInChunksTok (tok : String → Option (List ℤ)) (detok : List ℤ → Option String)
    (text : Option String) (N : ℕ) : Option (List String) :=
  match text with
  | none => none
  | some t =>
    match tok t with
    | none => none
    | some tokens => (chunkList N tokens).mapM detok

/-- Outcome of one document's ingestion (`embedPath`): an error return, a
silent skip because the record already exists, a write of a fresh record, or
a process-aborting panic. -/
inductive EmbedOutcome where
  | err : EmbedOutcome
  | skipped : EmbedOutcome
  | wrote : EmbeddingFile → EmbedOutcome
  | panicked : EmbedOutcome
deriving DecidableEq

/-- The per-chunk embedding loop of `embedPath` in `main.go` (lines 158-168):
a transport error (`svc c = none`) is logged and the chunk skipped; a
successful response is dereferenced as `res.Embeddings[0]` without a length
check, so an empty response (`svc c = some []`) panics. -/
def embedLoop (svc : String → Option (List (List ℚ))) : List String → Option (List (List ℚ))
  | [] => some []
  | c :: cs =>
    match svc c with
    | none => embedLoop svc cs
    | some [] => none
    | some (v :: _) => (embedLoop svc cs).map (fun r => v :: r)

/-- The per-chunk embedding loop of the tokenizer variant (lines 221-235):
both a transport error and an empty response are logged and the chunk
skipped. -/
def embedLoopTok (svc : String → Option (List (List ℚ))) : List String → List (List ℚ)
  | [] => []
  | c :: cs =>
    match svc c with
    | none => embedLoopTok svc cs
    | some [] => embedLoopTok svc cs
    | some (v :: _) => v :: embedLoopTok svc cs

/-- Model of `embedPath` from `main.go`: read and chunk the source first
(`src = none` is a read error, returned before anything else), then skip if
the destination record exists (`os.Stat(out) == nil`), otherwise run the
embedding loop and write the record `{embeddings, chunkSize, in}`. -/
def embedPath (src : Option (List String)) (N : ℕ) (hasOut : Bool)
    (svc : String → Option (List (List ℚ))) (inName : String) : EmbedOutcome :=
  match src with
  | none => .err
  | some ws =>
    if hasOut then .skipped
    else
      match embedLoop svc (readFileInChunks ws N) with
      | none => .panicked
      | some embs => .wrote ⟨embs, N, inName⟩

/-- Model of `embedPath` from the tokenizer variant: identical shape, with
the chunking result produced by `readFileInChunksTok` and the lenient
embedding loop. -/
def embedPathTok (chunksRes : Option (List String)) (N : ℕ) (hasOut : Bool)
    (svc : String → Option (List (List ℚ))) (inName : String) : EmbedOutcome :=
  match chunksRes with
  | none => .err
  | some cs =>
    if hasOut then .skipped
    else .wrote ⟨embedLoopTok svc cs, N, inName⟩

/-- Effect of one ingestion outcome on the store (one JSON file per document
key): only a `wrote` outcome touches the store. -/
def applyOutcome (store : String → Option EmbeddingFile) (key : String) :
    EmbedOutcome → (String → Option EmbeddingFile)
  | .wrote r => fun k => if k = key then some r else store k
  | _ => store

lemma chunkScores_length (sq : ℚ → ℚ) (q : List ℚ) :
    ∀ (es : List (List ℚ)) (cs : List ℚ),
      chunkScores sq q es = some cs → cs.length = es.length := by
  intro es
  induction es with
  | nil =>
    intro cs h
    simp only [chunkScores, Option.some.injEq] at h
    subst h
    rfl
  | cons e es ih =>
    intro cs h
    simp only [chunkScores] at h
    cases hc : cosineSimilarity sq q e with
    | none => rw [hc] at h; simp at h
    | some c =>
      rw [hc] at h
      cases hcs : chunkScores sq q es with
      | none => rw [hcs] at h; simp at h
      | some cs2 =>
        rw [hcs] at h
        simp only [Option.some.injEq] at h
        subst h
        simp [ih cs2 hcs]

lemma scoreLoop_eq (sq : ℚ → ℚ) (q : List ℚ) :
    ∀ (es : List (List ℚ)) (cs : List ℚ),
      chunkScores sq q es = some cs →
      ∀ acc : ℚ, scoreLoop sq q acc es = some (acc + cs.sum) := by
  intro es
  induction es with
  | nil =>
    intro cs h acc
    simp only [chunkScores, Option.some.injEq] at h
    subst h
    simp [scoreLoop]
  | cons e es ih =>
    intro cs h acc
    simp only [chunkScores] at h
    cases hc : cosineSimilarity sq q e with
    | none => rw [hc] at h; simp at h
    | some c =>
      rw [hc] at h
      cases hcs : chunkScores sq q es with
      | none => rw [hcs] at h; simp at h
      | some cs2 =>
        rw [hcs] at h
        simp only [Option.some.injEq] at h
        subst h
        simp only [scoreLoop, hc, ih cs2 hcs (acc + c), List.sum_cons]
        ring_nf

/-- C1 (amended): in `main.go` (and the tokenizer variant) the per-document
aggregate score is the arithmetic mean of the per-chunk cosine similarities:
whenever every chunk of the record scores successfully, yielding the list
`cs` of per-chunk scores, the aggregate equals `cs.sum / cs.length`; in
particular for a single-chunk record the aggregate equals that chunk's score.
(The whole-file variant instead scores a record by its first vector alone,
see the counterexample.) -/
theorem scoreRecord_mean (sq : ℚ → ℚ) (q : List ℚ) (embs : List (List ℚ)) (cs : List ℚ)
    (h : chunkScores sq q embs = some cs) :
    scoreRecord sq q embs = some (cs.sum / (cs.length : ℚ))
    ∧ ∀ c : ℚ, cs = [c] → scoreRecord sq q embs = some c := by
  have hlen := chunkScores_length sq q embs cs h
  have hloop := scoreLoop_eq sq q embs cs h 0
  constructor
  · unfold scoreRecord
    rw [hloop]
    simp [hlen]
  · intro c hc
    unfold scoreRecord
    rw [hloop]
    subst hc
    simp at hlen
    simp [← hlen]

theorem scoreRecord_mean_witness :
    chunkScores ratSqrt [1, 0] [[1, 0], [0, 1]] = some [1, 0]
    ∧ scoreRecord ratSqrt [1, 0] [[1, 0], [0, 1]] =
        some (([1, 0] : List ℚ).sum / ((([1, 0] : List ℚ).length : ℕ) : ℚ)) :=
  have h : chunkScores ratSqrt [1, 0] [[1, 0], [0, 1]] = some [1, 0] := by
    norm_num [chunkScores, cosineSimilarity, simLoop, ratSqrt]
  ⟨h, (scoreRecord_mean ratSqrt [1, 0] [[1, 0], [0, 1]] [1, 0] h).1⟩

/-- C1 counterexample: for the stored record `[[1,0],[0,1]]` (two chunk
vectors) and query `[1,0]`, the whole-file variant's ranker scores the
document `1` — the first chunk's score standing in for the whole document —
while the arithmetic mean of the per-chunk scores is `1/2`.  So the claim
that the aggregate always equals the mean (and that a single chunk's score
never stands in for the document when `n > 1`) fails on that variant. -/
theorem headScore_not_mean :
    scoreRecordHead ratSqrt [1, 0] [[1, 0], [0, 1]] = some 1
    ∧ scoreRecord ratSqrt [1, 0] [[1, 0], [0, 1]] = some (1 / 2)
    ∧ 1 < ([[1, 0], [0, 1]] : List (List ℚ)).length
    ∧ (1 : ℚ) ≠ 1 / 2 := by
  refine ⟨?_, ?_, by norm_num, by norm_num⟩
  · norm_num [scoreRecordHead, cosineSimilarity, simLoop, ratSqrt]
  · norm_num [scoreRecord, scoreLoop, cosineSimilarity, simLoop, ratSqrt]

/-- C4 (amended): on a query/stored vector length mismatch, `main.go`'s
`cosineSimilarity` fails loudly by panicking — which aborts the whole
process, modelled as `none` — while the tokenizer variant silently returns
the score `0` for that pair; neither surfaces a recoverable
configuration-level error for the query. -/
theorem cosine_mismatch_behavior (sq : ℚ → ℚ) (a b : List ℚ) (h : a.length ≠ b.length) :
    cosineSimilarity sq a b = none ∧ cosineSimilarityTok sq a b = 0 := by
  simp [cosineSimilarity, cosineSimilarityTok, h]

theorem cosine_mismatch_behavior_witness :
    ([1, 0] : List ℚ).length ≠ ([1] : List ℚ).length
    ∧ (cosineSimilarity ratSqrt [1, 0] [1] = none
       ∧ cosineSimilarityTok ratSqrt [1, 0] [1] = 0) :=
  ⟨by decide, cosine_mismatch_behavior ratSqrt [1, 0] [1] (by decide)⟩

/-- C4 counterexample: for the mismatched pair `[1,0]` versus `[1]`, the
tokenizer variant silently returns the zero score `0` (indistinguishable
from a genuine orthogonal pair), and `main.go` panics (modelled `none`),
crashing the process — refuting the claim that the computation neither
silently returns a zero score nor crashes the process. -/
theorem cosine_mismatch_counterexample :
    cosineSimilarityTok ratSqrt [1, 0] [1] = 0
    ∧ cosineSimilarity ratSqrt [1, 0] [1] = none
    ∧ ([1, 0] : List ℚ).length ≠ ([1] : List ℚ).length := by decide

/-- C6 (amended): during the full-corpus scan a record that parses but
contains zero embedding vectors is skipped with a warning and the scan
continues over the rest; a record that fails to parse, however, aborts the
entire scan (`log.Fatal`), modelled as the scan returning `none`. -/
theorem scan_skip_empty_abort_malformed (sq : ℚ → ℚ) (q : List ℚ)
    (rest : List (Option EmbeddingFile)) (r : EmbeddingFile) (h : r.Embeddings = []) :
    scanCorpus sq q (none :: rest) = none
    ∧ scanCorpus sq q (some r :: rest) = scanCorpus sq q rest := by
  exact ⟨rfl, by simp [scanCorpus, h]⟩

theorem scan_skip_empty_abort_malformed_witness :
    (EmbeddingFile.mk [] 500 "empty.json").Embeddings = []
    ∧ (scanCorpus ratSqrt [1] (none :: []) = none
       ∧ scanCorpus ratSqrt [1] (some (EmbeddingFile.mk [] 500 "empty.json") :: []) =
           scanCorpus ratSqrt [1] []) :=
  ⟨rfl, scan_skip_empty_abort_malformed ratSqrt [1] [] (EmbeddingFile.mk [] 500 "empty.json") rfl⟩

/-- C6 counterexample: with a malformed record first and a perfectly valid
record after it, the scan aborts (`log.Fatal`, modelled `none`) instead of
skipping the malformed file and ranking the valid one — which on its own
would have scored successfully. -/
theorem scan_malformed_counterexample :
    scanCorpus ratSqrt [1, 0] [none, some ⟨[[1, 0]], 500, "good.txt"⟩] = none
    ∧ scanCorpus ratSqrt [1, 0] [some ⟨[[1, 0]], 500, "good.txt"⟩] =
        some [⟨1, "good.txt"⟩] := by
  constructor
  · rfl
  · norm_num [scanCorpus, scoreRecord, scoreLoop, cosineSimilarity, simLoop, ratSqrt]

/-- C7: re-ingesting a document whose record already exists is a no-op on
the store: whenever the destination record exists (`hasOut = true`) and the
source is readable, `embedPath` (both in `main.go` and the tokenizer
variant) returns the skip outcome without writing, and the store is left
pointwise unchanged — the skip being gated solely by the existence flag. -/
theorem embedPath_skip_existing (src : Option (List String)) (N : ℕ)
    (svc : String → Option (List (List ℚ))) (inName key : String)
    (store : String → Option EmbeddingFile) (ws : List String) (h : src = some ws) :
    embedPath src N true svc inName = .skipped
    ∧ embedPathTok src N true svc inName = .skipped
    ∧ applyOutcome store key (embedPath src N true svc inName) = store := by
  subst h
  exact ⟨rfl, rfl, rfl⟩

theorem embedPath_skip_existing_witness :
    (some ["hello"] : Option (List String)) = some ["hello"]
    ∧ (embedPath (some ["hello"]) 500 true (fun _ => none) "doc.txt" = .skipped
       ∧ embedPathTok (some ["hello"]) 500 true (fun _ => none) "doc.txt" = .skipped
       ∧ applyOutcome (fun _ => none) "doc.json"
           (embedPath (some ["hello"]) 500 true (fun _ => none) "doc.txt") = (fun _ => none)) :=
  ⟨rfl, embedPath_skip_existing (some ["hello"]) 500 (fun _ => none) "doc.txt" "doc.json"
    (fun _ => none) ["hello"] rfl⟩
/-- C10: `embedPath` reads and chunks the source before the record-existence
check, so an unreadable source makes re-ingestion fail with an error even
when the record already exists (never a silent skip), and in the tokenizer
variant an unreachable tokenizer service does the same; in every such case
the store is left unchanged. -/
theorem embedPath_read_before_check (N : ℕ) (hasOut : Bool)
    (svc : String → Option (List (List ℚ))) (inName key : String)
    (store : String → Option EmbeddingFile)
    (tok : String → Option (List ℤ)) (detok : List ℤ → Option String)
    (t : String) (h : tok t = none) :
    embedPath none N hasOut svc inName = .err
    ∧ applyOutcome store key (embedPath none N hasOut svc inName) = store
    ∧ readFileInChunksTok tok detok none N = none
    ∧ embedPathTok (readFileInChunksTok tok detok (some t) N) N hasOut svc inName = .err := by
  refine ⟨rfl, rfl, rfl, ?_⟩
  simp [readFileInChunksTok, h, embedPathTok]

theorem embedPath_read_before_check_witness :
    (fun _ : String => (none : Option (List ℤ))) "text" = none
    ∧ (embedPath none 100 true (fun _ => none) "doc.txt" = .err
       ∧ applyOutcome (fun _ => none) "doc.json"
           (embedPath none 100 true (fun _ => none) "doc.txt") = (fun _ => none)
       ∧ readFileInChunksTok (fun _ => none) (fun _ => none) none 100 = none
       ∧ embedPathTok (readFileInChunksTok (fun _ => none) (fun _ => none) (some "text") 100)
           100 true (fun _ => none) "doc.txt" = .err) :=
  ⟨rfl, embedPath_read_before_check 100 true (fun _ => none) "doc.txt" "doc.json"
    (fun _ => none) (fun _ => none) (fun _ => none) "text" rfl⟩

lemma embedLoop_eq (svc : String → Option (List (List ℚ))) :
    ∀ l : List String, (∀ c ∈ l, svc c ≠ some []) →
      embedLoop svc l = some (l.filterMap (fun c => (svc c).bind List.head?)) := by
  intro l
  induction l with
  | nil => intro _; rfl
  | cons c cs ih =>
    intro h
    have hc := h c (List.mem_cons_self c cs)
    have hcs : ∀ x ∈ cs, svc x ≠ some [] := fun x hx => h x (List.mem_cons_of_mem c hx)
    cases hsvc : svc c with
    | none => simp [embedLoop, hsvc, List.filterMap_cons, ih hcs]
    | some vs =>
      cases vs with
      | nil => exact absurd hsvc hc
      | cons v vt => simp [embedLoop, hsvc, List.filterMap_cons, ih hcs]

lemma embedLoopTok_eq (svc : String → Option (List (List ℚ))) :
    ∀ l : List String,
      embedLoopTok svc l = l.filterMap (fun c => (svc c).bind List.head?) := by
  intro l
  induction l with
  | nil => rfl
  | cons c cs ih =>
    cases hsvc : svc c with
    | none => simp [embedLoopTok, hsvc, List.filterMap_cons, ih]
    | some vs =>
      cases vs with
      | nil => simp [embedLoopTok, hsvc, List.filterMap_cons, ih]
      | cons v vt => simp [embedLoopTok, hsvc, List.filterMap_cons, ih]

/-- C8 (amended): when an embedding call fails with a transport error for a
chunk, the failure is logged and that chunk is skipped; ingestion of the
document continues and a record is still written containing exactly the
vectors of the successfully embedded chunks — a partial record when some
chunk failed.  In `main.go` this holds provided no call returns an empty
vector list (that case panics); the tokenizer variant skips empty responses
as well, unconditionally.  Other documents are unaffected since `embedPath`
handles one document in isolation. -/
theorem embedPath_writes_successes (ws : List String) (N : ℕ)
    (svc : String → Option (List (List ℚ))) (inName : String)
    (h : ∀ c ∈ readFileInChunks ws N, svc c ≠ some []) :
    embedPath (some ws) N false svc inName =
      .wrote ⟨(readFileInChunks ws N).filterMap (fun c => (svc c).bind List.head?), N, inName⟩
    ∧ ∀ cs : List String, embedPathTok (some cs) N false svc inName =
        .wrote ⟨cs.filterMap (fun c => (svc c).bind List.head?), N, inName⟩ := by
  constructor
  · simp [embedPath, embedLoop_eq svc _ h]
  · intro cs
    simp [embedPathTok, embedLoopTok_eq svc cs]

theorem embedPath_writes_successes_witness :
    (∀ c ∈ readFileInChunks ["w"] 1, (fun _ : String => some [[(2 : ℚ)]]) c ≠ some [])
    ∧ (embedPath (some ["w"]) 1 false (fun _ => some [[(2 : ℚ)]]) "doc.txt" =
        .wrote ⟨(readFileInChunks ["w"] 1).filterMap
          (fun c => ((fun _ : String => some [[(2 : ℚ)]]) c).bind List.head?), 1, "doc.txt"⟩
       ∧ ∀ cs : List String,
           embedPathTok (some cs) 1 false (fun _ => some [[(2 : ℚ)]]) "doc.txt" =
             .wrote ⟨cs.filterMap
               (fun c => ((fun _ : String => some [[(2 : ℚ)]]) c).bind List.head?), 1, "doc.txt"⟩) :=
  ⟨by decide, embedPath_writes_successes ["w"] 1 (fun _ => some [[(2 : ℚ)]]) "doc.txt" (by decide)⟩

/-- C8 counterexample: ingesting the two-word document `["a", "b"]` with
chunk size 1, where the embedding service succeeds on chunk `"a "` and fails
with a transport error on chunk `"b "`, `embedPath` still writes a record —
containing only the first chunk's vector, i.e. a partial record — refuting
the claim that the document's unit of work is abandoned with no (partial)
record written. -/
theorem embedPath_partial_record_counterexample :
    (fun s : String => if s = "a " then some [[(1 : ℚ)]] else none) "b " = none
    ∧ readFileInChunks ["a", "b"] 1 = ["a ", "b "]
    ∧ embedPath (some ["a", "b"]) 1 false
        (fun s => if s = "a " then some [[(1 : ℚ)]] else none) "doc.txt" =
        .wrote ⟨[[(1 : ℚ)]], 1, "doc.txt"⟩ := by decide

/-- C3: the top-k selection loop `for i := len(scores)-1;
i > len(scores)-(maxResults+1); i--` always runs `maxResults` iterations, so
whenever the corpus holds fewer records than `maxResults` it evaluates
`scores[-1]` and panics with an index-out-of-range error (modelled `none`):
an empty corpus — and any corpus smaller than `k` — crashes the query
instead of returning the available records; a corpus of at least `k`
records is returned correctly. -/
theorem rank_empty_corpus_panics :
    rankScores ([] : List ScoredResult) 10 = none
    ∧ rankScores [⟨1, "only.json"⟩] 10 = none
    ∧ rankScores [⟨1, "only.json"⟩] 1 = some [⟨1, "only.json"⟩] := by decide

lemma chunkLoop_join (N : ℕ) : ∀ (ws acc : List α), (chunkLoop N ws acc).flatten = acc ++ ws := by
  intro ws
  induction ws with
  | nil =>
    intro acc
    cases acc with
    | nil => simp [chunkLoop]
    | cons a as => simp [chunkLoop]
  | cons w ws ih =>
    intro acc
    by_cases h : (acc ++ [w]).length = N
    · simp only [chunkLoop]
      rw [if_pos h]
      simp [ih]
    · simp only [chunkLoop]
      rw [if_neg h]
      simp [ih]

lemma chunkLoop_ne_nil (N : ℕ) : ∀ (ws acc : List α), ∀ c ∈ chunkLoop N ws acc, c ≠ [] := by
  intro ws
  induction ws with
  | nil =>
    intro acc c hc
    cases acc with
    | nil => simp [chunkLoop] at hc
    | cons a as =>
      simp [chunkLoop] at hc
      subst hc
      simp
  | cons w ws ih =>
    intro acc c hc
    by_cases h : (acc ++ [w]).length = N
    · simp only [chunkLoop] at hc
      rw [if_pos h] at hc
      rcases List.mem_cons.mp hc with rfl | hc
      · simp
      · exact ih [] c hc
    · simp only [chunkLoop] at hc
      rw [if_neg h] at hc
      exact ih (acc ++ [w]) c hc

lemma chunkLoop_le (N : ℕ) : ∀ (ws acc : List α), acc.length < N →
    ∀ c ∈ chunkLoop N ws acc, c.length ≤ N := by
  intro ws
  induction ws with
  | nil =>
    intro acc hacc c hc
    cases acc with
    | nil => simp [chunkLoop] at hc
    | cons a as =>
      simp [chunkLoop] at hc
      subst hc
      exact Nat.le_of_lt hacc
  | cons w ws ih =>
    intro acc hacc c hc
    by_cases h : (acc ++ [w]).length = N
    · simp only [chunkLoop] at hc
      rw [if_pos h] at hc
      rcases List.mem_cons.mp hc with rfl | hc
      · exact Nat.le_of_eq h
      · exact ih [] (Nat.lt_of_le_of_lt (Nat.zero_le _) (by simpa using hacc)) c hc
    · simp only [chunkLoop] at hc
      rw [if_neg h] at hc
      have hlt : (acc ++ [w]).length < N := by
        have : (acc ++ [w]).length = acc.length + 1 := by simp
        omega
      exact ih (acc ++ [w]) hlt c hc

lemma forall_dropLast_cons {γ} (P : γ → Prop) (x : γ) (l : List γ)
    (hx : P x) (hl : ∀ c ∈ l.dropLast, P c) : ∀ c ∈ (x :: l).dropLast, P c := by
  cases l with
  | nil => intro c hc; simp at hc
  | cons y l2 =>
    intro c hc
    rw [List.dropLast_cons₂] at hc
    rcases List.mem_cons.mp hc with rfl | hc
    · exact hx
    · exact hl c hc

lemma chunkLoop_dropLast (N : ℕ) : ∀ (ws acc : List α), acc.length < N →
    ∀ c ∈ (chunkLoop N ws acc).dropLast, c.length = N := by
  intro ws
  induction ws with
  | nil =>
    intro acc _ c hc
    cases acc with
    | nil => simp [chunkLoop] at hc
    | cons a as => simp [chunkLoop] at hc
  | cons w ws ih =>
    intro acc hacc
    by_cases h : (acc ++ [w]).length = N
    · intro c hc
      simp only [chunkLoop] at hc
      rw [if_pos h] at hc
      exact forall_dropLast_cons (fun d : List α => d.length = N) _ _ h
        (ih [] (Nat.lt_of_le_of_lt (Nat.zero_le _) (by simpa using hacc))) c hc
    · intro c hc
      simp only [chunkLoop] at hc
      rw [if_neg h] at hc
      have hlt : (acc ++ [w]).length < N := by
        have : (acc ++ [w]).length = acc.length + 1 := by simp
        omega
      exact ih (acc ++ [w]) hlt c hc

lemma renderChunk_append (l : List String) (w : String) :
    renderChunk (l ++ [w]) = renderChunk l ++ (w ++ " ") := by
  induction l with
  | nil => simp [renderChunk, String.empty_append, String.append_empty]
  | cons x l ih => simp [renderChunk, ih, String.append_assoc]

lemma renderChunk_pos (w : String) (ws : List String) :
    0 < (renderChunk (w :: ws)).length := by
  have hsp : (" " : String).length = 1 := rfl
  simp only [renderChunk, String.length_append]
  omega

lemma renderChunk_ne_empty (l : List String) (h : l ≠ []) : renderChunk l ≠ "" := by
  cases l with
  | nil => exact absurd rfl h
  | cons w ws =>
    intro hc
    have hp := renderChunk_pos w ws
    rw [hc] at hp
    simp at hp

lemma readLoop_eq (N : ℕ) : ∀ (ws acc : List String) (cnt : ℕ) (cur : String),
    cnt = acc.length → cur = renderChunk acc →
    readLoop N ws cnt cur = (chunkLoop N ws acc).map renderChunk := by
  intro ws
  induction ws with
  | nil =>
    intro acc cnt cur hcnt hcur
    subst hcnt
    subst hcur
    cases acc with
    | nil => simp [readLoop, chunkLoop, renderChunk]
    | cons a as =>
      have hp := renderChunk_pos a as
      simp [readLoop, chunkLoop, hp]
  | cons w ws ih =>
    intro acc cnt cur hcnt hcur
    subst hcnt
    subst hcur
    by_cases h : acc.length + 1 = N
    · have h2 : (acc ++ [w]).length = N := by simpa using h
      have e1 : readLoop N (w :: ws) acc.length (renderChunk acc)
          = (renderChunk acc ++ (w ++ " ")) :: readLoop N ws 0 "" := by
        simp only [readLoop]
        rw [if_pos h]
      have e2 : chunkLoop N (w :: ws) acc = (acc ++ [w]) :: chunkLoop N ws [] := by
        simp only [chunkLoop]
        rw [if_pos h2]
      rw [e1, e2, List.map_cons, ih [] 0 "" rfl rfl, renderChunk_append]
    · have h2 : ¬ (acc ++ [w]).length = N := by simpa using h
      have e1 : readLoop N (w :: ws) acc.length (renderChunk acc)
          = readLoop N ws (acc.length + 1) (renderChunk acc ++ (w ++ " ")) := by
        simp only [readLoop]
        rw [if_neg h]
      have e2 : chunkLoop N (w :: ws) acc = chunkLoop N ws (acc ++ [w]) := by
        simp only [chunkLoop]
        rw [if_neg h2]
      rw [e1, e2]
      exact ih (acc ++ [w]) (acc.length + 1) _ (by simp) (renderChunk_append acc w).symm

lemma readFileInChunks_eq (ws : List String) (N : ℕ) :
    readFileInChunks ws N = (chunkList N ws).map renderChunk :=
  readLoop_eq N ws [] 0 "" rfl rfl

/-- C5: for every word sequence and every positive chunk size `N`, the
word-count chunker's output chunks concatenate (ignoring the inserted
separators, i.e. at the word level) back to exactly the input word sequence
— no trailing content is dropped — and no chunk holds more than `N` words;
the emitted strings are exactly those word chunks rendered with their
separators. -/
theorem chunker_words_preserved (ws : List String) (N : ℕ) (h : 0 < N) :
    (chunkList N ws).flatten = ws
    ∧ (∀ c ∈ chunkList N ws, c.length ≤ N)
    ∧ readFileInChunks ws N = (chunkList N ws).map renderChunk := by
  refine ⟨?_, ?_, readFileInChunks_eq ws N⟩
  · simpa using chunkLoop_join N ws []
  · intro c hc
    exact chunkLoop_le N ws [] (by simpa using h) c hc

theorem chunker_words_preserved_witness :
    0 < 2
    ∧ ((chunkList 2 ["the", "cat", "sat"]).flatten = ["the", "cat", "sat"]
       ∧ (∀ c ∈ chunkList 2 ["the", "cat", "sat"], c.length ≤ 2)
       ∧ readFileInChunks ["the", "cat", "sat"] 2 =
           (chunkList 2 ["the", "cat", "sat"]).map renderChunk) :=
  ⟨by decide, chunker_words_preserved ["the", "cat", "sat"] 2 (by decide)⟩

/-- C9: for every word sequence and chunk size `N ≥ 1`, every chunk except
possibly the last contains exactly `N` words, no emitted chunk is empty (as
a word list, and as the rendered string), the empty input yields zero
chunks, and each emitted string is its chunk's words each suffixed with a
single space (`renderChunk`). -/
theorem chunker_shape (ws : List String) (N : ℕ) (h : 0 < N) :
    (∀ c ∈ (chunkList N ws).dropLast, c.length = N)
    ∧ (∀ c ∈ chunkList N ws, c ≠ [])
    ∧ (∀ s ∈ readFileInChunks ws N, s ≠ "")
    ∧ chunkList N ([] : List String) = []
    ∧ readFileInChunks ([] : List String) N = []
    ∧ readFileInChunks ws N = (chunkList N ws).map renderChunk := by
  refine ⟨chunkLoop_dropLast N ws [] (by simpa using h), chunkLoop_ne_nil N ws [], ?_, rfl,
    ?_, readFileInChunks_eq ws N⟩
  · intro s hs
    rw [readFileInChunks_eq] at hs
    rcases List.mem_map.mp hs with ⟨c, hc, rfl⟩
    exact renderChunk_ne_empty c (chunkLoop_ne_nil N ws [] c hc)
  · simp [readFileInChunks, readLoop]

theorem chunker_shape_witness :
    0 < 3
    ∧ ((∀ c ∈ (chunkList 3 ["x", "y"]).dropLast, c.length = 3)
       ∧ (∀ c ∈ chunkList 3 ["x", "y"], c ≠ [])
       ∧ (∀ s ∈ readFileInChunks ["x", "y"] 3, s ≠ "")
       ∧ chunkList 3 ([] : List String) = []
       ∧ readFileInChunks ([] : List String) 3 = []
       ∧ readFileInChunks ["x", "y"] 3 = (chunkList 3 ["x", "y"]).map renderChunk) :=
  ⟨by decide, chunker_shape ["x", "y"] 3 (by decide)⟩

lemma goInsert_no_move (cmp : α → α → ℤ) (p : List α) (a : α)
    (h : ∀ x ∈ p, ¬ cmp a x < 0) : goInsert cmp p a = p ++ [a] := by
  simp only [goInsert]
  cases hp : p.reverse with
  | nil =>
    have hp2 : p = [] := by
      have := congrArg List.reverse hp
      simpa using this
    subst hp2
    simp
  | cons x xs =>
    have hx : x ∈ p := by
      have : x ∈ p.reverse := by
        rw [hp]
        exact List.mem_cons_self x xs
      simpa using this
    have hfalse : decide (cmp a x < 0) = false := by simpa using h x hx
    have hrev : (x :: xs).reverse = p := by rw [← hp, List.reverse_reverse]
    simp [List.dropWhile_cons, List.takeWhile_cons, hfalse, hrev]

lemma foldl_goInsert (cmp : α → α → ℤ) :
    ∀ (rest p : List α),
      (∀ a ∈ rest, ∀ x ∈ p, ¬ cmp a x < 0) →
      (∀ a ∈ rest, ∀ b ∈ rest, ¬ cmp a b < 0) →
      rest.foldl (goInsert cmp) p = p ++ rest := by
  intro rest
  induction rest with
  | nil =>
    intro p _ _
    simp
  | cons a rest ih =>
    intro p h1 h2
    simp only [List.foldl_cons]
    rw [goInsert_no_move cmp p a (h1 a (List.mem_cons_self a rest))]
    have hh1 : ∀ b ∈ rest, ∀ x ∈ p ++ [a], ¬ cmp b x < 0 := by
      intro b hb x hx
      rcases List.mem_append.mp hx with hx | hx
      · exact h1 b (List.mem_cons_of_mem a hb) x hx
      · have hxa : x = a := List.mem_singleton.mp hx
        rw [hxa]
        exact h2 b (List.mem_cons_of_mem a hb) a (List.mem_cons_self a rest)
    have hh2 : ∀ x ∈ rest, ∀ y ∈ rest, ¬ cmp x y < 0 :=
      fun x hx y hy => h2 x (List.mem_cons_of_mem a hx) y (List.mem_cons_of_mem a hy)
    rw [ih (p ++ [a]) hh1 hh2]
    simp

lemma selectLoop_eq (l : List α) :
    ∀ (k j : ℕ), k ≤ j → j ≤ l.length →
      selectLoop l ((j : ℤ) - 1) k = some (((l.take j).drop (j - k)).reverse) := by
  intro k
  induction k with
  | zero =>
    intro j _ hj
    have hd : (l.take j).drop (j - 0) = [] := by
      apply List.drop_eq_nil_of_le
      simp [List.length_take]
    rw [hd]
    simp [selectLoop]
  | succ k ih =>
    intro j hk hj
    obtain ⟨j2, rfl⟩ : ∃ j2, j = j2 + 1 := ⟨j - 1, by omega⟩
    have hj2 : j2 < l.length := by omega
    simp only [selectLoop]
    rw [if_neg (by push_cast; omega : ¬ (((j2 + 1 : ℕ) : ℤ) - 1 < 0))]
    have htn : (((j2 + 1 : ℕ) : ℤ) - 1).toNat = j2 := by push_cast; omega
    rw [htn]
    have hget : l.get? j2 = some (l.get ⟨j2, hj2⟩) := List.get?_eq_get hj2
    rw [hget]
    have hstep : ((j2 + 1 : ℕ) : ℤ) - 1 - 1 = ((j2 : ℕ) : ℤ) - 1 := by push_cast; ring
    rw [hstep]
    rw [ih j2 (by omega) (by omega)]
    simp only [Option.map_some']
    congr 1
    rw [show j2 + 1 - (k + 1) = j2 - k by omega]
    rw [List.take_succ]
    have hgete : l[j2]? = some (l.get ⟨j2, hj2⟩) := by
      simp [List.getElem?_eq_getElem hj2]
    rw [hgete]
    simp only [Option.toList_some]
    rw [List.drop_append_of_le_length (by simp; omega)]
    rw [List.reverse_append]
    simp

lemma scoreCmp_antisymm (a b : ScoredResult) : scoreCmp b a = -scoreCmp a b := by
  unfold scoreCmp ratTrunc
  have harg : 100 * b.Score - 100 * a.Score = -(100 * a.Score - 100 * b.Score) := by ring
  rw [harg, Rat.neg_num, Rat.neg_den, Int.neg_tdiv]

lemma head?_dropWhile_false (p : α → Bool) :
    ∀ (l : List α) (x : α), (l.dropWhile p).head? = some x → p x = false := by
  intro l
  induction l with
  | nil => intro x h; simp [List.dropWhile] at h
  | cons a l ih =>
    intro x h
    by_cases hp : p a = true
    · simp only [List.dropWhile_cons, hp, if_true] at h
      exact ih x h
    · have hp2 : p a = false := by simpa using hp
      simp only [List.dropWhile_cons, hp2, Bool.false_eq_true, if_false, List.head?_cons,
        Option.some.injEq] at h
      rw [← h]
      exact hp2

lemma goInsert_split (cmp : α → α → ℤ) (s : List α) (e : α) :
    ∃ u v : List α, s = u ++ v ∧ goInsert cmp s e = u ++ e :: v
      ∧ (∀ x ∈ v, cmp e x < 0)
      ∧ (∀ x, u.getLast? = some x → ¬ cmp e x < 0) := by
  refine ⟨(s.reverse.dropWhile (fun x => cmp e x < 0)).reverse,
          (s.reverse.takeWhile (fun x => cmp e x < 0)).reverse, ?_, rfl, ?_, ?_⟩
  · rw [← List.reverse_append, List.takeWhile_append_dropWhile, List.reverse_reverse]
  · intro x hx
    have hx2 : x ∈ s.reverse.takeWhile (fun y => decide (cmp e y < 0)) := by simpa using hx
    have hpx := List.mem_takeWhile_imp hx2
    simpa using hpx
  · intro x hx
    rw [List.getLast?_reverse] at hx
    have hpx := head?_dropWhile_false _ _ x hx
    simpa using hpx

lemma goInsert_length (cmp : α → α → ℤ) (s : List α) (e : α) :
    (goInsert cmp s e).length = s.length + 1 := by
  obtain ⟨u, v, hs, hg, -, -⟩ := goInsert_split cmp s e
  rw [hg, hs]
  simp only [List.length_append, List.length_cons]
  omega

lemma foldl_goInsert_length (cmp : α → α → ℤ) :
    ∀ (rest s : List α), (rest.foldl (goInsert cmp) s).length = s.length + rest.length := by
  intro rest
  induction rest with
  | nil => intro s; simp
  | cons e rest ih =>
    intro s
    simp only [List.foldl_cons, List.length_cons]
    rw [ih (goInsert cmp s e), goInsert_length]
    omega

lemma insertionSortGo_length (cmp : α → α → ℤ) (l : List α) :
    (insertionSortGo cmp l).length = l.length := by
  unfold insertionSortGo
  rw [foldl_goInsert_length]
  simp

lemma sublist_goInsert (cmp : α → α → ℤ) (s : List α) (e : α) :
    List.Sublist s (goInsert cmp s e) := by
  obtain ⟨u, v, hs, hg, -, -⟩ := goInsert_split cmp s e
  rw [hg, hs]
  exact List.Sublist.append_left (List.sublist_cons_self e v) u

lemma self_mem_goInsert (cmp : α → α → ℤ) (s : List α) (e : α) :
    e ∈ goInsert cmp s e := by
  obtain ⟨u, v, -, hg, -, -⟩ := goInsert_split cmp s e
  rw [hg]
  simp

lemma pair_sublist_goInsert (cmp : α → α → ℤ) (s : List α) (e a : α)
    (hne : ¬ cmp e a < 0) (ha : a ∈ s) :
    List.Sublist [a, e] (goInsert cmp s e) := by
  obtain ⟨u, v, hs, hg, hv, -⟩ := goInsert_split cmp s e
  rw [hg]
  rw [hs] at ha
  have hau : a ∈ u := by
    rcases List.mem_append.mp ha with h | h
    · exact h
    · exact absurd (hv a h) hne
  exact List.Sublist.append (List.singleton_sublist.mpr hau)
    (List.Sublist.cons₂ e (List.nil_sublist v))

lemma goInsert_chain' (cmp : α → α → ℤ) (hanti : ∀ a b : α, cmp b a = -cmp a b)
    (s : List α) (e : α) (hs : List.Chain' (fun u v => cmp u v ≤ 0) s) :
    List.Chain' (fun u v => cmp u v ≤ 0) (goInsert cmp s e) := by
  obtain ⟨u, v, hseq, hg, hv, hu⟩ := goInsert_split cmp s e
  rw [hg]
  rw [hseq, List.chain'_append] at hs
  obtain ⟨hcu, hcv, -⟩ := hs
  rw [List.chain'_append]
  refine ⟨hcu, ?_, ?_⟩
  · rw [List.chain'_cons']
    refine ⟨?_, hcv⟩
    intro y hy
    exact le_of_lt (hv y (List.mem_of_mem_head? hy))
  · intro x hx y hy
    have hy2 : e = y := by simpa using hy
    rw [← hy2]
    have hxe := hu x (by simpa using hx)
    have hax := hanti e x
    omega

lemma insertionSortGo_chain' (cmp : α → α → ℤ) (hanti : ∀ a b : α, cmp b a = -cmp a b)
    (l : List α) : List.Chain' (fun u v => cmp u v ≤ 0) (insertionSortGo cmp l) := by
  have hfold : ∀ (rest s : List α), List.Chain' (fun u v => cmp u v ≤ 0) s →
      List.Chain' (fun u v => cmp u v ≤ 0) (rest.foldl (goInsert cmp) s) := by
    intro rest
    induction rest with
    | nil => intro s hs; simpa using hs
    | cons e rest ih => intro s hs; exact ih (goInsert cmp s e) (goInsert_chain' cmp hanti s e hs)
  simpa [insertionSortGo] using hfold l [] List.chain'_nil

lemma foldl_goInsert_pair (cmp : α → α → ℤ) :
    ∀ (rest s : List α) (a b : α), ¬ cmp b a < 0 →
      (List.Sublist [a, b] s ∨ (a ∈ s ∧ b ∈ rest) ∨ List.Sublist [a, b] rest) →
      List.Sublist [a, b] (rest.foldl (goInsert cmp) s) := by
  intro rest
  induction rest with
  | nil =>
    intro s a b _ hcase
    simp only [List.foldl_nil]
    rcases hcase with h | ⟨-, h⟩ | h
    · exact h
    · simp at h
    · have hlen := h.length_le
      simp at hlen
  | cons e rest ih =>
    intro s a b hne hcase
    simp only [List.foldl_cons]
    apply ih (goInsert cmp s e) a b hne
    rcases hcase with h | ⟨ha, hb⟩ | h
    · exact Or.inl (h.trans (sublist_goInsert cmp s e))
    · rcases List.mem_cons.mp hb with rfl | hb2
      · exact Or.inl (pair_sublist_goInsert cmp s _ a hne ha)
      · exact Or.inr (Or.inl ⟨(sublist_goInsert cmp s e).subset ha, hb2⟩)
    · cases h with
      | cons x h2 => exact Or.inr (Or.inr h2)
      | cons₂ _ h2 =>
        exact Or.inr (Or.inl ⟨self_mem_goInsert cmp s _, List.singleton_sublist.mp h2⟩)

lemma insertionSortGo_pair (cmp : α → α → ℤ) (l : List α) (a b : α)
    (hne : ¬ cmp b a < 0) (hab : List.Sublist [a, b] l) :
    List.Sublist [a, b] (insertionSortGo cmp l) :=
  foldl_goInsert_pair cmp l [] a b hne (Or.inr (Or.inr hab))

/-- C2 (amended): for every corpus of at most 12 scored records — where Go's
`slices.SortFunc` runs its insertion-sort branch, which this model
reproduces — and every `k` at most the corpus size: (1) the ranker returns
the last `k` entries, in reverse, of the array sorted ascending by the
truncated comparator `int(100*a.Score - 100*b.Score)`, deterministically
(the model is a pure function of corpus and `k`, so repeated calls agree);
(2) adjacent entries of that sorted array never strictly descend under the
comparator; (3) any two records in scan order whose comparator does not
strictly order the later below the earlier — in particular any tied pair,
including scores whose scaled difference truncates to `0` — keep their scan
order in the sorted array, and are therefore emitted in reverse scan order,
not ascending document identifier; (4) in particular a fully tied corpus
comes out as exactly the reverse of the scan order's last `k`. -/
theorem rank_sorted_topk_reverse (l : List ScoredResult) (k : ℕ)
    (_hsmall : l.length ≤ 12) (hk : k ≤ l.length) :
    rankScores l k = some (((insertionSortGo scoreCmp l).drop (l.length - k)).reverse)
    ∧ List.Chain' (fun u v => scoreCmp u v ≤ 0) (insertionSortGo scoreCmp l)
    ∧ (∀ a b : ScoredResult, List.Sublist [a, b] l → ¬ scoreCmp b a < 0 →
        List.Sublist [a, b] (insertionSortGo scoreCmp l))
    ∧ ((∀ a ∈ l, ∀ b ∈ l, scoreCmp a b = 0) →
        rankScores l k = some ((l.drop (l.length - k)).reverse)) := by
  have hmain : rankScores l k =
      some (((insertionSortGo scoreCmp l).drop (l.length - k)).reverse) := by
    unfold rankScores selectTopK
    rw [insertionSortGo_length scoreCmp l]
    rw [selectLoop_eq (insertionSortGo scoreCmp l) k l.length hk
      (le_of_eq (insertionSortGo_length scoreCmp l).symm)]
    have ht : (insertionSortGo scoreCmp l).take l.length = insertionSortGo scoreCmp l := by
      rw [← insertionSortGo_length scoreCmp l, List.take_length]
    rw [ht]
  refine ⟨hmain, insertionSortGo_chain' scoreCmp scoreCmp_antisymm l, ?_, ?_⟩
  · intro a b hab hne
    exact insertionSortGo_pair scoreCmp l a b hne hab
  · intro hties
    have hsort : insertionSortGo scoreCmp l = l := by
      unfold insertionSortGo
      have hfold := foldl_goInsert scoreCmp l []
        (by intro a _ x hx; simp at hx)
        (by intro a ha b hb; rw [hties a ha b hb]; omega)
      simpa using hfold
    rw [hmain, hsort]

theorem rank_sorted_topk_reverse_witness :
    (([⟨1, "x.json"⟩, ⟨1, "y.json"⟩] : List ScoredResult).length ≤ 12
     ∧ 1 ≤ ([⟨1, "x.json"⟩, ⟨1, "y.json"⟩] : List ScoredResult).length)
    ∧ (rankScores [⟨1, "x.json"⟩, ⟨1, "y.json"⟩] 1 =
        some (((insertionSortGo scoreCmp [⟨1, "x.json"⟩, ⟨1, "y.json"⟩]).drop
          (([⟨1, "x.json"⟩, ⟨1, "y.json"⟩] : List ScoredResult).length - 1)).reverse)
       ∧ List.Chain' (fun u v => scoreCmp u v ≤ 0)
           (insertionSortGo scoreCmp [⟨1, "x.json"⟩, ⟨1, "y.json"⟩])
       ∧ (∀ a b : ScoredResult,
            List.Sublist [a, b] ([⟨1, "x.json"⟩, ⟨1, "y.json"⟩] : List ScoredResult) →
            ¬ scoreCmp b a < 0 →
            List.Sublist [a, b] (insertionSortGo scoreCmp [⟨1, "x.json"⟩, ⟨1, "y.json"⟩]))
       ∧ ((∀ a ∈ ([⟨1, "x.json"⟩, ⟨1, "y.json"⟩] : List ScoredResult),
             ∀ b ∈ ([⟨1, "x.json"⟩, ⟨1, "y.json"⟩] : List ScoredResult), scoreCmp a b = 0) →
           rankScores [⟨1, "x.json"⟩, ⟨1, "y.json"⟩] 1 =
             some ((([⟨1, "x.json"⟩, ⟨1, "y.json"⟩] : List ScoredResult).drop
               (([⟨1, "x.json"⟩, ⟨1, "y.json"⟩] : List ScoredResult).length - 1)).reverse))) :=
  ⟨⟨by decide, by decide⟩,
    rank_sorted_topk_reverse [⟨1, "x.json"⟩, ⟨1, "y.json"⟩] 1 (by decide) (by decide)⟩

/-- C2 counterexample: two records with exactly equal scores, stored in scan
order `a.json` then `b.json`, come out of the ranker as `[b.json, a.json]` —
the reverse of the scan order, here descending document identifier — which
differs from the ascending-document-identifier order `[a.json, b.json]` the
claim requires for ties. -/
theorem rank_tie_order_counterexample :
    rankScores [⟨1 / 2, "a.json"⟩, ⟨1 / 2, "b.json"⟩] 2 =
      some [⟨1 / 2, "b.json"⟩, ⟨1 / 2, "a.json"⟩]
    ∧ some [(⟨1 / 2, "b.json"⟩ : ScoredResult), ⟨1 / 2, "a.json"⟩] ≠
        some [(⟨1 / 2, "a.json"⟩ : ScoredResult), ⟨1 / 2, "b.json"⟩] := by
  constructor
  · norm_num [rankScores, insertionSortGo, goInsert, selectTopK, selectLoop, scoreCmp, ratTrunc]
  · simp
